import Mathlib

/-!
# Verification of the linear-collection library (singly linked list, queue, priority queue)

This file gives a shallow embedding of the repository's data structures and
settles the specification's claims about them.

The singly linked list in the source is a mutable pointer structure: each node
object holds a `value` and a `next` reference, and the list object holds
`head`/`tail` references plus a `length` counter.  Following the arena design
the spec itself recommends for ownership-explicit ports, we model the node
graph as an arena (`nodes : List (INode T)`) addressed by index: a "pointer"
is an `Option Nat` (`none` = JavaScript `null`), and node identity is index
identity, which faithfully captures reference equality (`===`) and dangling
`tail` references to detached nodes.  Every node ever allocated stays in the
arena, exactly as a detached-but-referenced JS object stays alive.

JavaScript operations can throw a `TypeError` when they dereference `null`
(e.g. `this.head.next` on an empty list), and a `while (current)` walk can
diverge on a cyclic graph.  The outcome type `JSOutcome` makes both explicit:
`ok` is normal completion, `typeError` a thrown null-dereference, and `loops`
divergence (traversals get fuel `nodes.length + 1`, which is enough for every
terminating JS traversal, so `loops` is returned exactly when the JS loop
would not terminate).  A thrown error aborts the operation before the
offending assignment, so `typeError` carries no state: the heap is unchanged.
-/

set_option autoImplicit false

namespace DSA

universe u

/-- Outcome of running a JavaScript method: normal return, thrown
`TypeError` (null/undefined dereference), or non-termination. -/
inductive JSOutcome (α : Type u) where
  | ok : α → JSOutcome α
  | typeError : JSOutcome α
  | loops : JSOutcome α
  deriving DecidableEq, Repr

/-- A linked-list node: `value` plus a `next` pointer (`none` = `null`).
Mirrors `interface INode<T>` in the source; `next` is an arena index. -/
structure INode (T : Type u) where
  value : T
  next : Option Nat
  deriving DecidableEq, Repr

/-- `createNode` from the source: a fresh node with `next = null`. -/
def createNode {T : Type u} (value : T) : INode T :=
  { value := value, next := none }

/-- The linked-list state: the arena of all allocated nodes plus the three
fields `head`, `tail`, `length` of the source's `LinkedList<T>` object.
`length` is a JS number used as an integer counter, so we model it as `Int`. -/
structure LinkedList (T : Type u) where
  nodes : List (INode T)
  head : Option Nat
  tail : Option Nat
  length : Int
  deriving DecidableEq, Repr

/-- `createLinkedList` of the source returns the empty list state. -/
def createLinkedList {T : Type u} : LinkedList T :=
  { nodes := [], head := none, tail := none, length := 0 }

/-- Mutate the `next` field of the node at arena index `i`
(the JS assignment `node.next = p`). No-op on an absent index, which never
arises from the API: every pointer stored by the operations is a live index. -/
def setNext {T : Type u} (nodes : List (INode T)) (i : Nat) (p : Option Nat) :
    List (INode T) :=
  match nodes[i]? with
  | none => nodes
  | some n => nodes.set i { n with next := p }

namespace LinkedList

variable {T : Type u}

/-- `isEmpty()`: `this.length === 0`. -/
def isEmpty (s : LinkedList T) : Bool :=
  s.length == 0

/-- `push(value)`: allocate a node; if the list has no head, it becomes both
head and tail; otherwise link the current tail to it and move `tail`.
Returns the new node (its arena index) and the updated state.
`this.tail.next = node` throws if `tail` is `null` while `head` is not. -/
def push (s : LinkedList T) (value : T) : JSOutcome (Nat × LinkedList T) :=
  match s.head with
  | none =>
      .ok (s.nodes.length,
        { nodes := s.nodes ++ [createNode value],
          head := some s.nodes.length, tail := some s.nodes.length,
          length := s.length + 1 })
  | some _ =>
      match s.tail with
      | none => .typeError
      | some t =>
          .ok (s.nodes.length,
            { nodes := setNext s.nodes t (some s.nodes.length)
                ++ [createNode value],
              head := s.head, tail := some s.nodes.length,
              length := s.length + 1 })

/-- The `while (current)` search in `pop`: walk from `current`, and `break`
with the first node whose `next === this.tail` (pointer comparison `tailP`).
Returns `.ok none` when the loop falls off the end of the chain without a
break (so the JS variable `penultimate` stays `undefined`). -/
def popFind (nodes : List (INode T)) (tailP : Option Nat) :
    Nat → Option Nat → JSOutcome (Option Nat)
  | _, none => .ok none
  | 0, some _ => .loops
  | fuel + 1, some cur =>
      match nodes[cur]? with
      | none => .typeError
      | some n =>
          if n.next = tailP then .ok (some cur)
          else popFind nodes tailP fuel n.next

/-- `pop()`: `null` on an empty list; on `head === tail` reset both to `null`;
otherwise find the penultimate node, cut its `next`, make it the new tail.
`penultimate.next = null` throws when the search never broke
(`penultimate` undefined). Returns the removed node pointer and the state. -/
def pop (s : LinkedList T) : JSOutcome (Option Nat × LinkedList T) :=
  if s.isEmpty then .ok (none, s)
  else if s.head = s.tail then
    .ok (s.tail, { s with head := none, tail := none, length := s.length - 1 })
  else
    match popFind s.nodes s.tail (s.nodes.length + 1) s.head with
    | .loops => .loops
    | .typeError => .typeError
    | .ok none => .typeError
    | .ok (some p) =>
        .ok (s.tail,
          { s with nodes := setNext s.nodes p none, tail := some p,
                   length := s.length - 1 })

/-- The walk of `get`: `while (i < index) { i++; current = current.next }`.
Reading `current.next` throws when `current` is `null`. -/
def getWalk (nodes : List (INode T)) : Nat → Option Nat → JSOutcome (Option Nat)
  | 0, cur => .ok cur
  | _ + 1, none => .typeError
  | steps + 1, some cur =>
      match nodes[cur]? with
      | none => .typeError
      | some n => getWalk nodes steps n.next

/-- `get(index)`: `null` when `index < 0 || index > this.length` (note the
source's loose `>` bound), `head` at index 0, otherwise the pointer after
walking `index` steps from `head`. Reads only; never mutates. -/
def get (s : LinkedList T) (index : Int) : JSOutcome (Option Nat) :=
  if index < 0 ∨ index > s.length then .ok none
  else if index = 0 then .ok s.head
  else getWalk s.nodes index.toNat s.head

/-- The walk of `delete`:
`while (i < index) { i++; previous = current; current = current.next }`,
returning the final `(previous, current)`.  `previous` starts out as the
JS variable's pre-assignment value (we pass `none`; `delete` only walks a
positive number of steps, so it is always overwritten before use). -/
def deleteWalk (nodes : List (INode T)) :
    Nat → Option Nat → Option Nat → JSOutcome (Option Nat × Option Nat)
  | 0, prev, cur => .ok (prev, cur)
  | _ + 1, _, none => .typeError
  | steps + 1, _, some cur =>
      match nodes[cur]? with
      | none => .typeError
      | some n => deleteWalk nodes steps (some cur) n.next

/-- `delete(index)`: `null` when `index < 0 || index > this.length`; at
index 0 reassign `head` to `head.next` (throwing on an empty list, and never
touching `tail`); otherwise walk to `(previous, current)` and splice
`previous.next = current.next` (throwing when `current` is `null`, i.e. at
`index == length`). Decrements `length` on success. -/
def delete (s : LinkedList T) (index : Int) :
    JSOutcome (Option Nat × LinkedList T) :=
  if index < 0 ∨ index > s.length then .ok (none, s)
  else if index = 0 then
    match s.head with
    | none => .typeError
    | some h =>
        match s.nodes[h]? with
        | none => .typeError
        | some n =>
            .ok (some h, { s with head := n.next, length := s.length - 1 })
  else
    match deleteWalk s.nodes index.toNat none s.head with
    | .loops => .loops
    | .typeError => .typeError
    | .ok (prev, cur) =>
        match prev, cur with
        | some p, some c =>
            match s.nodes[c]? with
            | none => .typeError
            | some cn =>
                .ok (some c,
                  { s with nodes := setNext s.nodes p cn.next,
                           length := s.length - 1 })
        | _, _ => .typeError

/-- The `while (current)` loop of `print`: collect the values reachable from
`current` in traversal order. -/
def printWalk (nodes : List (INode T)) : Nat → Option Nat → JSOutcome (List T)
  | _, none => .ok []
  | 0, some _ => .loops
  | fuel + 1, some cur =>
      match nodes[cur]? with
      | none => .typeError
      | some n =>
          match printWalk nodes fuel n.next with
          | .ok vs => .ok (n.value :: vs)
          | .typeError => .typeError
          | .loops => .loops

/-- `print()`: collect all values from `head` and `values.join(' => ')`.
`toStr` renders a value to a string, as `join` stringifies elements.
Reads only; never mutates. -/
def print (toStr : T → String) (s : LinkedList T) : JSOutcome String :=
  match printWalk s.nodes (s.nodes.length + 1) s.head with
  | .ok values => .ok (String.intercalate " => " (values.map toStr))
  | .typeError => .typeError
  | .loops => .loops

end LinkedList

/-! ## Well-formed linked-list states

`isChain nodes p ids` says that starting from pointer `p` and repeatedly
following `next` one traverses exactly the arena indices `ids` and then hits
`null`.  `WfWith s ids` is the data-model contract of the spec (invariants
I1–I5) made explicit: the chain from `head` is `ids`, `tail` is its last
element, `length` counts it, and it has no duplicate node. -/

/-- Decidable chain predicate: from pointer `p`, following `next` visits
exactly the indices `ids` and ends at `null`. -/
def isChain {T : Type u} (nodes : List (INode T)) : Option Nat → List Nat → Bool
  | p, [] => p == none
  | p, i :: rest =>
      p == some i &&
        match nodes[i]? with
        | none => false
        | some n => isChain nodes n.next rest

/-- `s` is a well-formed list whose node chain is `ids` (in order from head
to tail).  This packages invariants I1–I5 of the spec. -/
def WfWith {T : Type u} (s : LinkedList T) (ids : List Nat) : Prop :=
  isChain s.nodes s.head ids = true ∧
    s.tail = ids.getLast? ∧
    s.length = (ids.length : Int) ∧
    ids.Nodup

/-! ### Chain lemmas -/

section ChainLemmas

variable {T : Type u}

theorem isChain_nil_iff {nodes : List (INode T)} {p : Option Nat} :
    isChain nodes p [] = true ↔ p = none := by
  simp [isChain]

theorem isChain_cons_lookup {nodes : List (INode T)} {p : Option Nat} {i : Nat}
    {rest : List Nat} {n : INode T} (h : nodes[i]? = some n) :
    isChain nodes p (i :: rest) = (p == some i && isChain nodes n.next rest) := by
  conv_lhs => rw [isChain]
  rw [h]

theorem isChain_cons_none {nodes : List (INode T)} {p : Option Nat} {i : Nat}
    {rest : List Nat} (h : nodes[i]? = none) :
    isChain nodes p (i :: rest) = false := by
  unfold isChain
  rw [h]
  simp

theorem isChain_cons_iff {nodes : List (INode T)} {p : Option Nat} {i : Nat}
    {rest : List Nat} :
    isChain nodes p (i :: rest) = true ↔
      p = some i ∧ ∃ n, nodes[i]? = some n ∧ isChain nodes n.next rest = true := by
  cases h : nodes[i]? with
  | none =>
      rw [isChain_cons_none h]
      constructor
      · intro hf
        cases hf
      · rintro ⟨-, n, hn, -⟩
        cases hn
  | some n =>
      rw [isChain_cons_lookup h, Bool.and_eq_true, beq_iff_eq]
      constructor
      · rintro ⟨h1, h2⟩
        exact ⟨h1, n, rfl, h2⟩
      · rintro ⟨h1, m, hm, h2⟩
        cases hm
        exact ⟨h1, h2⟩

/-- Every index on a chain is a live arena index. -/
theorem isChain_mem_lt {nodes : List (INode T)} :
    ∀ {ids : List Nat} {p : Option Nat}, isChain nodes p ids = true →
      ∀ i ∈ ids, i < nodes.length
  | [], _, _, i, hi => absurd hi (List.not_mem_nil i)
  | j :: rest, p, h, i, hi => by
      obtain ⟨-, n, hn, hrest⟩ := isChain_cons_iff.mp h
      rcases List.mem_cons.mp hi with rfl | hi
      · exact (List.getElem?_eq_some.mp hn).1
      · exact isChain_mem_lt hrest i hi

/-- A duplicate-free chain has no more nodes than the arena. -/
theorem isChain_length_le {nodes : List (INode T)} {ids : List Nat}
    {p : Option Nat} (h : isChain nodes p ids = true) (hnd : ids.Nodup) :
    ids.length ≤ nodes.length := by
  have hsub : ids ⊆ List.range nodes.length := by
    intro i hi
    exact List.mem_range.mpr (isChain_mem_lt h i hi)
  simpa using (hnd.subperm hsub).length_le

/-- Walking `k` next-steps along a chain of `ids` lands on the pointer
`ids[k]?` (so walking the full length lands on `null`), without
a thrown error. -/
theorem getWalk_chain {nodes : List (INode T)} :
    ∀ {ids : List Nat} {p : Option Nat}, isChain nodes p ids = true →
      ∀ k, k ≤ ids.length → LinkedList.getWalk nodes k p = .ok ids[k]?
  | [], p, h, 0, _ => by
      rw [isChain_nil_iff.mp h]
      simp [LinkedList.getWalk]
  | [], p, h, k + 1, hk => absurd hk (by simp)
  | i :: rest, p, h, 0, _ => by
      obtain ⟨rfl, -⟩ := isChain_cons_iff.mp h
      simp [LinkedList.getWalk]
  | i :: rest, p, h, k + 1, hk => by
      obtain ⟨rfl, n, hn, hrest⟩ := isChain_cons_iff.mp h
      show LinkedList.getWalk nodes (k + 1) (some i) = _
      unfold LinkedList.getWalk
      rw [hn]
      simpa using getWalk_chain hrest k (by simpa using hk)

theorem popFind_step {nodes : List (INode T)} {tailP : Option Nat}
    {fuel cur : Nat} {n : INode T} (hn : nodes[cur]? = some n) :
    LinkedList.popFind nodes tailP (fuel + 1) (some cur) =
      if n.next = tailP then .ok (some cur)
      else LinkedList.popFind nodes tailP fuel n.next := by
  conv_lhs => rw [LinkedList.popFind]
  rw [hn]

/-- The `pop` search along a chain of at least two nodes finds exactly the
penultimate chain entry: the first node whose `next` equals the tail pointer
is the penultimate one, because on a duplicate-free chain no earlier node
can point at the tail. -/
theorem popFind_chain {nodes : List (INode T)} :
    ∀ {ids : List Nat} {p : Option Nat}, isChain nodes p ids = true →
      ids.Nodup → 2 ≤ ids.length → ∀ fuel, ids.length ≤ fuel →
        LinkedList.popFind nodes ids.getLast? fuel p = .ok ids.dropLast.getLast?
  | [], _, _, _, h2, _, _ => absurd h2 (by simp)
  | [_], _, _, _, h2, _, _ => absurd h2 (by simp)
  | i :: j :: rest, p, h, hnd, h2, fuel, hf => by
      obtain ⟨rfl, n, hn, hrest⟩ := isChain_cons_iff.mp h
      have hnj : n.next = some j := (isChain_cons_iff.mp hrest).1
      cases fuel with
      | zero => exact absurd hf (by simp)
      | succ f =>
          rw [popFind_step hn]
          cases rest with
          | nil =>
              rw [if_pos (by rw [hnj]; rfl)]
              rfl
          | cons r rs =>
              have hne : ¬ n.next = (i :: j :: r :: rs).getLast? := by
                rw [hnj, List.getLast?_cons_cons,
                  List.getLast?_eq_getLast _ (by simp)]
                intro he
                have hj : j = (j :: r :: rs).getLast (by simp) :=
                  Option.some.inj he
                have hmem : (j :: r :: rs).getLast (by simp) ∈ r :: rs := by
                  rw [List.getLast_cons (by simp : (r :: rs) ≠ [])]
                  exact List.getLast_mem _
                rw [← hj] at hmem
                exact (List.nodup_cons.mp (List.nodup_cons.mp hnd).2).1 hmem
              rw [if_neg hne]
              have ih := popFind_chain hrest (List.nodup_cons.mp hnd).2
                (by simp) f (by simpa using hf)
              rw [hnj] at ih
              rw [hnj, List.getLast?_cons_cons, ih]
              simp

/-- The values stored on the chain `ids`, in traversal order. -/
def chainValues (nodes : List (INode T)) (ids : List Nat) : List T :=
  ids.filterMap fun i => (nodes[i]?).map fun n => n.value

theorem chainValues_nil {nodes : List (INode T)} :
    chainValues nodes [] = [] := rfl

theorem chainValues_cons {nodes : List (INode T)} {i : Nat} {rest : List Nat}
    {n : INode T} (hn : nodes[i]? = some n) :
    chainValues nodes (i :: rest) = n.value :: chainValues nodes rest := by
  unfold chainValues
  rw [List.filterMap_cons, hn]
  rfl

theorem printWalk_step {nodes : List (INode T)} {fuel cur : Nat}
    {n : INode T} (hn : nodes[cur]? = some n) :
    LinkedList.printWalk nodes (fuel + 1) (some cur) =
      match LinkedList.printWalk nodes fuel n.next with
      | .ok vs => .ok (n.value :: vs)
      | .typeError => .typeError
      | .loops => .loops := by
  conv_lhs => rw [LinkedList.printWalk]
  rw [hn]

/-- The `print` traversal along a chain collects exactly the chain's values,
in order, without error, provided the fuel covers the chain. -/
theorem printWalk_chain {nodes : List (INode T)} :
    ∀ {ids : List Nat} {p : Option Nat}, isChain nodes p ids = true →
      ∀ fuel, ids.length ≤ fuel →
        LinkedList.printWalk nodes fuel p = .ok (chainValues nodes ids)
  | [], p, h, fuel, _ => by
      rw [isChain_nil_iff.mp h, chainValues_nil]
      cases fuel <;> rfl
  | i :: rest, p, h, fuel, hf => by
      obtain ⟨rfl, n, hn, hrest⟩ := isChain_cons_iff.mp h
      cases fuel with
      | zero => exact absurd hf (by simp)
      | succ f =>
          rw [printWalk_step hn, printWalk_chain hrest f (by simpa using hf),
            chainValues_cons hn]

end ChainLemmas

/-! ## Queue and priority queue

The queue is a JS array used as a double-ended store: `enqueue` is
`array.unshift` (prepend), `dequeue` is `array.pop` (remove the last
element and return it, `undefined` on empty), `peek` reads
`array[array.length - 1]`.  We model the array as a `List`, absent values
(`undefined`) as `none`. -/

/-- State of `createQueue()`: the backing array, front of the queue last. -/
structure Queue (T : Type u) where
  items : List T
  deriving DecidableEq, Repr

namespace Queue

variable {T : Type u}

/-- `enqueue(item)`: `queue.unshift(item)`. -/
def enqueue (q : Queue T) (item : T) : Queue T :=
  { items := item :: q.items }

/-- `dequeue()`: `queue.pop()` — remove and return the last array element;
`undefined` (here `none`) on an empty array, which it leaves unchanged. -/
def dequeue (q : Queue T) : Option T × Queue T :=
  (q.items.getLast?, { items := q.items.dropLast })

/-- `peek()`: `queue[queue.length - 1]` — the last array element, or
`undefined` (here `none`) when the array is empty (index `-1`). -/
def peek (q : Queue T) : Option T :=
  match q.items with
  | [] => none
  | l => l[l.length - 1]?

/-- The `length` getter: `queue.length`. -/
def length (q : Queue T) : Nat :=
  q.items.length

/-- `isEmpty()`: `queue.length === 0`. -/
def isEmpty (q : Queue T) : Bool :=
  q.items.length == 0

end Queue

/-- State of `createPriorityQueue()`: the two composed queues. -/
structure PriorityQueue (T : Type u) where
  lowPriorityQueue : Queue T
  highPriorityQueue : Queue T
  deriving DecidableEq, Repr

namespace PriorityQueue

variable {T : Type u}

/-- `enqueue(item, isHeighPriority)`: route to the matching lane. -/
def enqueue (pq : PriorityQueue T) (item : T) (isHeighPriority : Bool) :
    PriorityQueue T :=
  if isHeighPriority then
    { pq with highPriorityQueue := pq.highPriorityQueue.enqueue item }
  else
    { pq with lowPriorityQueue := pq.lowPriorityQueue.enqueue item }

/-- `dequeue()`: take from the high-priority lane unless it is empty,
else from the low-priority lane. -/
def dequeue (pq : PriorityQueue T) : Option T × PriorityQueue T :=
  if !pq.highPriorityQueue.isEmpty then
    let r := pq.highPriorityQueue.dequeue
    (r.1, { pq with highPriorityQueue := r.2 })
  else
    let r := pq.lowPriorityQueue.dequeue
    (r.1, { pq with lowPriorityQueue := r.2 })

/-- `peek()`: peek the high-priority lane unless it is empty, else the
low-priority lane. -/
def peek (pq : PriorityQueue T) : Option T :=
  if !pq.highPriorityQueue.isEmpty then pq.highPriorityQueue.peek
  else pq.lowPriorityQueue.peek

/-- `length()`: sum of the two lanes' lengths. -/
def length (pq : PriorityQueue T) : Nat :=
  pq.highPriorityQueue.length + pq.lowPriorityQueue.length

/-- `isEmpty()`: both lanes empty. -/
def isEmpty (pq : PriorityQueue T) : Bool :=
  pq.highPriorityQueue.isEmpty && pq.lowPriorityQueue.isEmpty

end PriorityQueue

/-! ## Basic queue lemmas -/

/-- `peek` reads the last element of the backing array, i.e. `getLast?`. -/
theorem Queue.peek_eq_getLast? {T : Type u} (q : Queue T) :
    q.peek = q.items.getLast? := by
  unfold Queue.peek
  match q with
  | ⟨[]⟩ => rfl
  | ⟨x :: l⟩ => exact (List.getLast?_eq_getElem? _).symm

/-- `isEmpty` decides emptiness of the backing array. -/
theorem Queue.isEmpty_iff {T : Type u} (q : Queue T) :
    q.isEmpty = true ↔ q.items = [] := by
  unfold Queue.isEmpty
  simp [List.length_eq_zero]

/-! ## Claims about the code's `delete` (C1–C4)

The source's `delete` deviates from the spec in three ways, all flagged by
the spec itself as slips to fix rather than behavior to keep:
its bounds check uses `index > length` (admitting `index == length`, which
then dereferences `null` and throws), `delete(0)` never resets `tail`, and
the splice branch never reassigns `tail` when the tail node is removed. -/

/-- C1: the claim says invariants I1–I5 hold after every call of every
push/pop/get/delete/print/isEmpty sequence from the empty list.  The code
violates I1: pushing one value and then calling `delete(0)` yields a state
with `length = 0` and `head = none` but `tail ≠ none` (it still points at
the removed node). -/
theorem delete_zero_singleton_breaks_I1 :
    LinkedList.push (createLinkedList (T := String)) "a" =
      .ok (0, ⟨[⟨"a", none⟩], some 0, some 0, 1⟩) ∧
    LinkedList.delete (⟨[⟨"a", none⟩], some 0, some 0, 1⟩ : LinkedList String) 0 =
      .ok (some 0, ⟨[⟨"a", none⟩], none, some 0, 0⟩) ∧
    ((⟨[⟨"a", none⟩], none, some 0, 0⟩ : LinkedList String).length = 0 ∧
      (⟨[⟨"a", none⟩], none, some 0, 0⟩ : LinkedList String).head = none ∧
      ¬ (⟨[⟨"a", none⟩], none, some 0, 0⟩ : LinkedList String).tail = none) := by
  refine ⟨by decide, by decide, by decide, by decide, by decide⟩

/-- C2: the claim says `delete` returns none (never a thrown error, no
mutation) on every out-of-range index, including `index == length`.  The
code's bounds check admits `index == length`; it then dereferences `null`
(`previous.next = current.next`, or `this.head.next` on the empty list) and
throws a `TypeError`. Indices `< 0` or `> length` do return none unchanged. -/
theorem delete_at_length_throws_typeError :
    LinkedList.delete
        (⟨[⟨"a", some 1⟩, ⟨"b", none⟩], some 0, some 1, 2⟩ : LinkedList String) 2 =
      .typeError ∧
    LinkedList.delete (createLinkedList (T := String)) 0 = .typeError ∧
    LinkedList.delete
        (⟨[⟨"a", some 1⟩, ⟨"b", none⟩], some 0, some 1, 2⟩ : LinkedList String) (-1) =
      .ok (none, ⟨[⟨"a", some 1⟩, ⟨"b", none⟩], some 0, some 1, 2⟩) ∧
    LinkedList.delete
        (⟨[⟨"a", some 1⟩, ⟨"b", none⟩], some 0, some 1, 2⟩ : LinkedList String) 3 =
      .ok (none, ⟨[⟨"a", some 1⟩, ⟨"b", none⟩], some 0, some 1, 2⟩) := by
  refine ⟨by decide, by decide, by decide, by decide⟩

/-- C3: the claim says `delete(0)` on a one-element list resets both `head`
and `tail` to none.  The code only reassigns `head = head.next`: on the
singleton list it returns the sole node and sets `head = none`,
`length = 0`, but leaves `tail` pointing at the removed node. -/
theorem delete_zero_singleton_keeps_tail :
    LinkedList.delete (⟨[⟨"a", none⟩], some 0, some 0, 1⟩ : LinkedList String) 0 =
      .ok (some 0, ⟨[⟨"a", none⟩], none, some 0, 0⟩) ∧
    ¬ (⟨[⟨"a", none⟩], none, some 0, 0⟩ : LinkedList String).tail = none := by
  refine ⟨by decide, by decide⟩

/-- C4: the claim says that for an in-range `index > 0` the code splices
(`previous.next = target.next`) and, when the removed node is the tail,
reassigns `tail` to the predecessor.  The splice does happen, but the code
never reassigns `tail`: deleting index 1 of the two-element list leaves
`tail` pointing at the removed node 1 instead of the predecessor node 0. -/
theorem delete_tail_does_not_reassign_tail :
    LinkedList.delete
        (⟨[⟨"a", some 1⟩, ⟨"b", none⟩], some 0, some 1, 2⟩ : LinkedList String) 1 =
      .ok (some 1, ⟨[⟨"a", none⟩, ⟨"b", none⟩], some 0, some 1, 1⟩) ∧
    ¬ (⟨[⟨"a", none⟩, ⟨"b", none⟩], some 0, some 1, 1⟩ : LinkedList String).tail =
        some 0 := by
  refine ⟨by decide, by decide⟩

/-! ## C5: `pop` -/

/-- C5: on a well-formed list, `pop()` returns none and mutates nothing when
the list is empty; on a one-element list it returns the sole node and resets
`head` and `tail` to none with `length` 0; on a list of length ≥ 2 it
returns the original tail node, sets the penultimate node's `next` to none,
makes the penultimate node (the chain entry before the last) the new tail,
and decrements `length` by one, leaving `head` untouched. -/
theorem pop_meets_spec {T : Type u} (s : LinkedList T) (ids : List Nat)
    (hwf : WfWith s ids) :
    (s.length = 0 → s.pop = .ok (none, s)) ∧
      (s.length = 1 → ∃ t, s.head = some t ∧ s.tail = some t ∧
        s.pop = .ok (some t,
          { s with head := none, tail := none, length := 0 })) ∧
      (2 ≤ s.length → ∃ p, ids.dropLast.getLast? = some p ∧
        s.pop = .ok (s.tail,
          { s with nodes := setNext s.nodes p none, tail := some p,
                   length := s.length - 1 })) := by
  obtain ⟨hc, htail, hlen, hnd⟩ := hwf
  refine ⟨?_, ?_, ?_⟩
  · intro h0
    unfold LinkedList.pop
    rw [if_pos (by simp [LinkedList.isEmpty, h0])]
  · intro h1
    match ids, hc, htail, hlen with
    | [], _, _, hlen => rw [h1] at hlen; cases hlen
    | _ :: _ :: _, _, _, hlen =>
        rw [h1] at hlen
        exfalso
        have := hlen.symm
        simp at this
        omega
    | [t], hc, htail, _ =>
        obtain ⟨hhead, -⟩ := isChain_cons_iff.mp hc
        have htail' : s.tail = some t := by simpa using htail
        refine ⟨t, hhead, htail', ?_⟩
        unfold LinkedList.pop
        rw [if_neg (by simp [LinkedList.isEmpty, h1]),
          if_pos (hhead.trans htail'.symm), htail', h1]
        norm_num
  · intro h2
    have h2' : 2 ≤ ids.length := by omega
    have hpen : ∃ p, ids.dropLast.getLast? = some p := by
      rw [← Option.isSome_iff_exists, List.getLast?_isSome]
      intro hemp
      have := congrArg List.length hemp
      simp at this
      omega
    obtain ⟨p, hp⟩ := hpen
    refine ⟨p, hp, ?_⟩
    unfold LinkedList.pop
    have hht : ¬ s.head = s.tail := by
      match ids, hc, htail, h2' with
      | a :: b :: l, hc, htail, _ =>
          obtain ⟨hhead, -⟩ := isChain_cons_iff.mp hc
          rw [hhead, htail, List.getLast?_cons_cons,
            List.getLast?_eq_getLast _ (by simp)]
          intro he
          have ha : a = (b :: l).getLast (by simp) := Option.some.inj he
          have hmem : (b :: l).getLast (by simp) ∈ b :: l :=
            List.getLast_mem _
          rw [← ha] at hmem
          exact (List.nodup_cons.mp hnd).1 hmem
    rw [if_neg (by simp [LinkedList.isEmpty]; omega), if_neg hht, htail,
      popFind_chain hc hnd h2' (s.nodes.length + 1)
        (Nat.le_succ_of_le (isChain_length_le hc hnd)), hp]

/-- C5 witness: popping the well-formed two-element list `a => b` returns
the tail node 1, cuts node 0's `next`, and makes node 0 the tail. -/
theorem pop_meets_spec_witness :
    LinkedList.pop
        (⟨[⟨"a", some 1⟩, ⟨"b", none⟩], some 0, some 1, 2⟩ : LinkedList String) =
      .ok (some 1, ⟨[⟨"a", none⟩, ⟨"b", none⟩], some 0, some 0, 1⟩) := by
  obtain ⟨p, hp, he⟩ := (pop_meets_spec
    (⟨[⟨"a", some 1⟩, ⟨"b", none⟩], some 0, some 1, 2⟩ : LinkedList String)
    [0, 1] ⟨by decide, by decide, by decide, by decide⟩).2.2 (by decide)
  have hp0 : p = 0 := by simpa using hp.symm
  rw [hp0] at he
  exact he.trans (by decide)

/-! ## C9: `print` -/

/-- C9: on a well-formed list, `print()` completes without error and returns
the node values in traversal order from `head` (the chain's values), joined
by the fixed delimiter `" => "`.  `print` only reads the list, so in the
model it takes the state and returns only the string: it cannot mutate
`head`, `tail`, `length` or any node's `next`, and being a function of the
state, two consecutive calls with no intervening mutation return the same
string. -/
theorem print_meets_spec {T : Type u} (toStr : T → String) (s : LinkedList T)
    (ids : List Nat) (hwf : WfWith s ids) :
    s.print toStr =
      .ok (String.intercalate " => " ((chainValues s.nodes ids).map toStr)) := by
  obtain ⟨hc, -, -, hnd⟩ := hwf
  unfold LinkedList.print
  rw [printWalk_chain hc (s.nodes.length + 1)
    (Nat.le_succ_of_le (isChain_length_le hc hnd))]

/-- C9 witness: printing the well-formed two-element list gives
`"a => b"`. -/
theorem print_meets_spec_witness :
    LinkedList.print id
        (⟨[⟨"a", some 1⟩, ⟨"b", none⟩], some 0, some 1, 2⟩ : LinkedList String) =
      .ok "a => b" :=
  (print_meets_spec id
    (⟨[⟨"a", some 1⟩, ⟨"b", none⟩], some 0, some 1, 2⟩ : LinkedList String)
    [0, 1] ⟨by decide, by decide, by decide, by decide⟩).trans (by decide)

/-! ## C6: `get` -/

/-- C6: on a well-formed list, `get(index)` returns none for every
out-of-range index — `index < 0`, `index > length`, and also
`index == length`, where the loose bounds check lets the walk run and it
lands one step past the tail, on `null` — and for every in-range index
`0 ≤ index < length` it returns (the pointer to) the node reached by
walking `index` next-steps from `head`, i.e. the chain entry `ids[index]`.
`get` only reads local variables, so in the model it takes the state and
returns only the result: it cannot mutate `head`, `tail`, `length`, or any
node's `next`. -/
theorem get_meets_spec {T : Type u} (s : LinkedList T) (ids : List Nat)
    (hwf : WfWith s ids) (index : Int) :
    ((index < 0 ∨ s.length ≤ index) → s.get index = .ok none) ∧
      (0 ≤ index → index < s.length →
        ∃ j, ids[index.toNat]? = some j ∧ s.get index = .ok (some j)) := by
  obtain ⟨hc, htail, hlen, hnd⟩ := hwf
  constructor
  · intro h
    unfold LinkedList.get
    by_cases hg : index < 0 ∨ index > s.length
    · rw [if_pos hg]
    · rw [if_neg hg]
      have hidx : index = s.length := by omega
      by_cases h0 : index = 0
      · rw [if_pos h0]
        have hids : ids = [] := by
          cases ids with
          | nil => rfl
          | cons a l =>
              exfalso
              rw [hlen] at hidx
              rw [h0] at hidx
              simp at hidx
              omega
        rw [hids] at hc
        rw [isChain_nil_iff.mp hc]
      · rw [if_neg h0]
        have hk : index.toNat = ids.length := by omega
        rw [hk]
        rw [getWalk_chain hc ids.length le_rfl]
        rw [List.getElem?_eq_none le_rfl]
  · intro h0 hlt
    unfold LinkedList.get
    have hg : ¬ (index < 0 ∨ index > s.length) := by omega
    rw [if_neg hg]
    by_cases hz : index = 0
    · rw [if_pos hz]
      cases ids with
      | nil =>
          exfalso
          rw [hlen] at hlt
          simp at hlt
          omega
      | cons a l =>
          obtain ⟨hhead, -⟩ := isChain_cons_iff.mp hc
          refine ⟨a, ?_, ?_⟩
          · rw [hz]
            simp
          · rw [hhead]
    · rw [if_neg hz]
      have hk : index.toNat < ids.length := by omega
      refine ⟨ids[index.toNat], List.getElem?_eq_getElem hk, ?_⟩
      rw [getWalk_chain hc index.toNat (le_of_lt hk),
        List.getElem?_eq_getElem hk]

/-- C6 witness: on the well-formed two-element list `a => b`, `get(1)`
returns node 1 and `get(2)` (i.e. `get(length)`) returns none. -/
theorem get_meets_spec_witness :
    LinkedList.get
        (⟨[⟨"a", some 1⟩, ⟨"b", none⟩], some 0, some 1, 2⟩ : LinkedList String) 1 =
      .ok (some 1) ∧
    LinkedList.get
        (⟨[⟨"a", some 1⟩, ⟨"b", none⟩], some 0, some 1, 2⟩ : LinkedList String) 2 =
      .ok none := by
  constructor
  · obtain ⟨j, hj, he⟩ :=
      (get_meets_spec
        (⟨[⟨"a", some 1⟩, ⟨"b", none⟩], some 0, some 1, 2⟩ : LinkedList String)
        [0, 1] ⟨by decide, by decide, by decide, by decide⟩ 1).2
        (by decide) (by decide)
    have hj1 : j = 1 := by simpa using hj.symm
    rw [hj1] at he
    exact he
  · exact (get_meets_spec
      (⟨[⟨"a", some 1⟩, ⟨"b", none⟩], some 0, some 1, 2⟩ : LinkedList String)
      [0, 1] ⟨by decide, by decide, by decide, by decide⟩ 2).1 (by decide)

/-! ## C7: length accounting -/

/-- An operation of the length-accounting property: a `pop()` call or a
`delete(index)` call. -/
inductive LLOp where
  | pop : LLOp
  | delete : Int → LLOp
  deriving DecidableEq, Repr

/-- Run a sequence of `push` calls, propagating a thrown error. -/
def pushAll {T : Type u} (s : LinkedList T) : List T → JSOutcome (LinkedList T)
  | [] => .ok s
  | v :: vs =>
      match s.push v with
      | .ok (_, s') => pushAll s' vs
      | .typeError => .typeError
      | .loops => .loops

/-- Run a sequence of pop/delete calls, requiring every call to succeed:
to complete without a thrown error and to return a node rather than `null`.
Returns `none` as soon as a call throws, diverges, or returns `null`. -/
def runSuccOps {T : Type u} (s : LinkedList T) :
    List LLOp → Option (LinkedList T)
  | [] => some s
  | LLOp.pop :: rest =>
      match s.pop with
      | .ok (some _, s') => runSuccOps s' rest
      | _ => none
  | LLOp.delete i :: rest =>
      match s.delete i with
      | .ok (some _, s') => runSuccOps s' rest
      | _ => none

/-- Every completed `push` increments `length` by exactly one. -/
theorem push_ok_length {T : Type u} {s s' : LinkedList T} {v : T} {r : Nat}
    (h : s.push v = .ok (r, s')) : s'.length = s.length + 1 := by
  unfold LinkedList.push at h
  split at h
  · injection h with h'
    injection h' with h1 h2
    rw [← h2]
  · split at h
    · cases h
    · injection h with h'
      injection h' with h1 h2
      rw [← h2]

/-- Every `pop` that returns a node decrements `length` by exactly one. -/
theorem pop_ok_some_length {T : Type u} {s s' : LinkedList T} {r : Nat}
    (h : s.pop = .ok (some r, s')) : s'.length = s.length - 1 := by
  unfold LinkedList.pop at h
  split at h
  · simp at h
  · split at h
    · injection h with h'
      injection h' with h1 h2
      rw [← h2]
    · split at h
      · cases h
      · cases h
      · cases h
      · injection h with h'
        injection h' with h1 h2
        rw [← h2]

/-- Every `delete` that returns a node decrements `length` by exactly one. -/
theorem delete_ok_some_length {T : Type u} {s s' : LinkedList T} {i : Int}
    {r : Nat} (h : s.delete i = .ok (some r, s')) :
    s'.length = s.length - 1 := by
  unfold LinkedList.delete at h
  split at h
  · simp at h
  · split at h
    · split at h
      · cases h
      · split at h
        · cases h
        · injection h with h'
          injection h' with h1 h2
          rw [← h2]
    · split at h
      · cases h
      · cases h
      · split at h
        · split at h
          · cases h
          · injection h with h'
            injection h' with h1 h2
            rw [← h2]
        · cases h

/-- After a successful `pushAll`, `length` has grown by the number of
pushed values. -/
theorem pushAll_length {T : Type u} :
    ∀ (vs : List T) (s s' : LinkedList T), pushAll s vs = .ok s' →
      s'.length = s.length + vs.length
  | [], s, s', h => by
      cases h
      simp
  | v :: vs, s, s', h => by
      unfold pushAll at h
      split at h
      next r s1 heq =>
        have h1 := pushAll_length vs s1 s' h
        have h2 := push_ok_length heq
        rw [h1, h2]
        simp only [List.length_cons]
        push_cast
        ring
      next => cases h
      next => cases h

/-- After a successful run of pop/delete calls, `length` has shrunk by the
number of calls. -/
theorem runSuccOps_length {T : Type u} :
    ∀ (ops : List LLOp) (s s' : LinkedList T), runSuccOps s ops = some s' →
      s'.length = s.length - ops.length
  | [], s, s', h => by
      cases h
      simp
  | LLOp.pop :: rest, s, s', h => by
      unfold runSuccOps at h
      split at h
      next x s1 heq =>
        have h1 := runSuccOps_length rest s1 s' h
        have h2 := pop_ok_some_length heq
        rw [h1, h2]
        simp only [List.length_cons]
        push_cast
        ring
      next => cases h
  | LLOp.delete i :: rest, s, s', h => by
      unfold runSuccOps at h
      split at h
      next x s1 heq =>
        have h1 := runSuccOps_length rest s1 s' h
        have h2 := delete_ok_some_length heq
        rw [h1, h2]
        simp only [List.length_cons]
        push_cast
        ring
      next => cases h

/-- C7: starting from the empty list, after `N` pushes followed by any
sequence of `M` pop/delete calls that all succeed (complete without error
and return a node), the final `length` equals `N − M`. -/
theorem length_accounting {T : Type u} (vs : List T) (ops : List LLOp)
    (s1 s2 : LinkedList T) (h1 : pushAll createLinkedList vs = .ok s1)
    (h2 : runSuccOps s1 ops = some s2) :
    s2.length = (vs.length : Int) - (ops.length : Int) := by
  have ha := pushAll_length vs createLinkedList s1 h1
  have hb := runSuccOps_length ops s1 s2 h2
  rw [hb, ha]
  show (0 : Int) + vs.length - ops.length = _
  ring

/-- C7 witness: two pushes followed by one successful pop leave
`length = 2 − 1`. -/
theorem length_accounting_witness :
    pushAll (createLinkedList (T := String)) ["a", "b"] =
        .ok ⟨[⟨"a", some 1⟩, ⟨"b", none⟩], some 0, some 1, 2⟩ ∧
      runSuccOps
          (⟨[⟨"a", some 1⟩, ⟨"b", none⟩], some 0, some 1, 2⟩ : LinkedList String)
          [LLOp.pop] =
        some ⟨[⟨"a", none⟩, ⟨"b", none⟩], some 0, some 0, 1⟩ ∧
      (⟨[⟨"a", none⟩, ⟨"b", none⟩], some 0, some 0, 1⟩ : LinkedList String).length
        = ((["a", "b"] : List String).length : Int) - (([LLOp.pop]).length : Int) :=
  ⟨by decide, by decide,
    length_accounting ["a", "b"] [LLOp.pop]
      (⟨[⟨"a", some 1⟩, ⟨"b", none⟩], some 0, some 1, 2⟩ : LinkedList String)
      (⟨[⟨"a", none⟩, ⟨"b", none⟩], some 0, some 0, 1⟩ : LinkedList String)
      (by decide) (by decide)⟩

/-! ## C8 and C10: queue and priority queue -/

/-- C10: `peek()` returns exactly what the next `dequeue()` would return,
and on an empty queue `peek()` and `dequeue()` both return the absent
sentinel and `dequeue` leaves the queue unchanged.  (`peek` and the
`length` getter read the backing array without mutating it: in the model
they are plain functions of the state.) -/
theorem queue_peek_agrees_with_dequeue {T : Type u} (q : Queue T) :
    q.peek = q.dequeue.1 ∧
      (q.isEmpty = true →
        q.peek = none ∧ q.dequeue.1 = none ∧ q.dequeue.2 = q) := by
  constructor
  · rw [Queue.peek_eq_getLast?]; rfl
  · intro h
    obtain ⟨items⟩ := q
    rw [Queue.isEmpty_iff] at h
    cases h
    exact ⟨rfl, rfl, rfl⟩

/-- C10 witness: the general theorem applied to a concrete non-empty queue
and to the concrete empty queue. -/
theorem queue_peek_agrees_with_dequeue_witness :
    Queue.peek (⟨["a", "b"]⟩ : Queue String) =
        (Queue.dequeue (⟨["a", "b"]⟩ : Queue String)).1 ∧
      Queue.peek (⟨[]⟩ : Queue String) = none ∧
      (Queue.dequeue (⟨[]⟩ : Queue String)).1 = none ∧
      (Queue.dequeue (⟨[]⟩ : Queue String)).2 = (⟨[]⟩ : Queue String) :=
  ⟨(queue_peek_agrees_with_dequeue (⟨["a", "b"]⟩ : Queue String)).1,
    (queue_peek_agrees_with_dequeue (⟨[]⟩ : Queue String)).2 rfl⟩

/-- C8: `dequeue()`/`peek()` serve the high-priority lane whenever it is
non-empty and otherwise the low-priority lane; within a lane service is
FIFO (the element served is the earliest enqueued, `getLast?` of the
backing array, and a newly enqueued element never overtakes the ones
already present); `length()` is the sum of the lanes' lengths; and
`isEmpty()` holds exactly when both lanes are empty. -/
theorem priorityQueue_two_tier_spec {T : Type u} (pq : PriorityQueue T)
    (q : Queue T) (x : T) :
    (¬ pq.highPriorityQueue.items = [] →
        pq.dequeue = (pq.highPriorityQueue.items.getLast?,
            ⟨pq.lowPriorityQueue, ⟨pq.highPriorityQueue.items.dropLast⟩⟩) ∧
          pq.peek = pq.highPriorityQueue.items.getLast?) ∧
      (pq.highPriorityQueue.items = [] →
        pq.dequeue = (pq.lowPriorityQueue.items.getLast?,
            ⟨⟨pq.lowPriorityQueue.items.dropLast⟩, pq.highPriorityQueue⟩) ∧
          pq.peek = pq.lowPriorityQueue.items.getLast?) ∧
      pq.length =
        pq.highPriorityQueue.items.length + pq.lowPriorityQueue.items.length ∧
      (pq.isEmpty = true ↔
        pq.highPriorityQueue.items = [] ∧ pq.lowPriorityQueue.items = []) ∧
      (¬ q.items = [] → ((q.enqueue x).dequeue).1 = q.dequeue.1) := by
  refine ⟨?_, ?_, rfl, ?_, ?_⟩
  · intro h
    have hne : pq.highPriorityQueue.isEmpty = false := by
      rcases Bool.eq_false_or_eq_true pq.highPriorityQueue.isEmpty with ht | hf
      · exact absurd ((Queue.isEmpty_iff _).mp ht) h
      · exact hf
    constructor
    · unfold PriorityQueue.dequeue
      rw [hne]
      rfl
    · unfold PriorityQueue.peek
      rw [hne]
      simp [Queue.peek_eq_getLast?]
  · intro h
    have he : pq.highPriorityQueue.isEmpty = true := (Queue.isEmpty_iff _).mpr h
    refine ⟨?_, ?_⟩
    · unfold PriorityQueue.dequeue
      rw [he]
      rfl
    · unfold PriorityQueue.peek
      rw [he]
      simp [Queue.peek_eq_getLast?]
  · unfold PriorityQueue.isEmpty
    rw [Bool.and_eq_true, Queue.isEmpty_iff, Queue.isEmpty_iff]
  · intro h
    show ((x :: q.items).getLast?) = q.items.getLast?
    match q, h with
    | ⟨y :: l⟩, _ => simp

/-- C8 witness: the general theorem applied to a concrete state with one
element in each lane, and the FIFO conjunct at a concrete one-element
lane. -/
theorem priorityQueue_two_tier_spec_witness :
    PriorityQueue.dequeue (⟨⟨["l"]⟩, ⟨["h"]⟩⟩ : PriorityQueue String) =
        (some "h", ⟨⟨["l"]⟩, ⟨[]⟩⟩) ∧
      PriorityQueue.peek (⟨⟨["l"]⟩, ⟨["h"]⟩⟩ : PriorityQueue String) = some "h" ∧
      ((Queue.enqueue (⟨["w"]⟩ : Queue String) "z").dequeue).1 =
        (Queue.dequeue (⟨["w"]⟩ : Queue String)).1 := by
  have h := priorityQueue_two_tier_spec
    (⟨⟨["l"]⟩, ⟨["h"]⟩⟩ : PriorityQueue String) (⟨["w"]⟩ : Queue String) "z"
  have h1 := h.1 (by decide)
  exact ⟨h1.1, h1.2, h.2.2.2.2 (by decide)⟩

end DSA
